import Mathlib

/-!
Verification of the conjugate-gradient solver of the G+Smo repository
(`src/gsSolver/gsConjugateGradient.cpp`) against its natural-language
specification.

The vector arithmetic of the C++ code (Eigen dense vectors over `real_t`)
is embedded shallowly as functions `Fin n → ℚ`: exact field arithmetic,
with the square root (`math::sqrt`, `Eigen::norm`) abstracted as an
explicit function parameter `sqrt : ℚ → ℚ`, since no claim depends on a
particular rounding of it.  The member variables of the solver class are
gathered in `CGMembers`; the iterate `x` is passed separately, mirroring
the reference parameter of `initIteration`/`step`.

The base class `gsIterativeSolver` (the solve loop) and the spectral
helpers `gsLanczosMatrix` / Eigen's eigensolver are not part of the given
sources; they are modelled from the specification, as marked on each
definition.
-/

namespace GismoCG

open Matrix

abbrev Vec (n : ℕ) := Fin n → ℚ
abbrev Mat (n : ℕ) := Matrix (Fin n) (Fin n) ℚ

/-- The member variables of `gsConjugateGradient` (and of its base) that the
claims observe: residual `m_res`, search direction `m_update`, scratch
`m_tmp`, scalars `m_abs_new`, `m_error`, `m_rhs_norm`, and the recorded
coefficient trace `m_delta`, `m_gamma`. -/
structure CGMembers (n : ℕ) where
  res : Vec n
  update : Vec n
  tmp : Vec n
  absNew : ℚ
  error : ℚ
  rhsNorm : ℚ
  delta : List ℚ
  gamma : List ℚ

/-- `l.back() += q` of a C++ `std::vector`: add `q` to the last element.
On the empty vector the C++ call would be undefined; the embedding leaves
`[]` unchanged (the solver only calls it on a nonempty trace). -/
def addToLast : List ℚ → ℚ → List ℚ
  | [], _ => []
  | [a], q => [a + q]
  | a :: b :: rest, q => a :: addToLast (b :: rest) q

/-- Modelled from the spec: `gsIterativeSolver::initIteration` (base class,
not under src/): "computes `rhsNorm = ||rhs||`.  If `rhsNorm` is zero, sets
`x = 0`, marks `Converged`, returns immediately".  The returned `Bool` is
the converged flag; the error is reported as `0` in that branch. -/
def baseInitIteration {n : ℕ} (sqrt : ℚ → ℚ) (rhs x : Vec n) (m : CGMembers n) :
    Bool × Vec n × CGMembers n :=
  let rhsNorm := sqrt (rhs ⬝ᵥ rhs)
  if rhsNorm = 0 then
    (true, 0, { m with rhsNorm := rhsNorm, error := 0 })
  else
    (false, x, { m with rhsNorm := rhsNorm })

/-- Shallow embedding of `gsConjugateGradient::initIteration`
(src/src/gsSolver/gsConjugateGradient.cpp lines 19-50).  When
`calcEigenvals` is set the trace is reset to `delta = [0]`, `gamma = []`;
then the base initialization runs; then the initial residual, error,
search direction and preconditioned inner product are computed. -/
def cgInit {n : ℕ} (A P : Mat n) (sqrt : ℚ → ℚ) (tol : ℚ) (calcEigenvals : Bool)
    (rhs x : Vec n) (m : CGMembers n) : Bool × Vec n × CGMembers n :=
  let m1 := if calcEigenvals then { m with delta := [0], gamma := [] } else m
  match baseInitIteration sqrt rhs x m1 with
  | (true, x1, m2) => (true, x1, m2)
  | (false, x1, m2) =>
    let tmp := A *ᵥ x1
    let res := rhs - tmp
    let error := sqrt (res ⬝ᵥ res) / m2.rhsNorm
    if error < tol then
      (true, x1, { m2 with tmp := tmp, res := res, error := error })
    else
      let update := P *ᵥ res
      let absNew := res ⬝ᵥ update
      (false, x1, { m2 with tmp := tmp, res := res, error := error,
                            update := update, absNew := absNew })

/-- Shallow embedding of `gsConjugateGradient::step`
(src/src/gsSolver/gsConjugateGradient.cpp lines 53-82).  Note that the
source performs no breakdown test: `alpha` and `beta` are formed by plain
division whatever the denominators are. -/
def cgStep {n : ℕ} (A P : Mat n) (sqrt : ℚ → ℚ) (tol : ℚ) (calcEigenvals : Bool)
    (x : Vec n) (m : CGMembers n) : Bool × Vec n × CGMembers n :=
  let tmp := A *ᵥ m.update
  let alpha := m.absNew / (m.update ⬝ᵥ tmp)
  let delta1 := if calcEigenvals then addToLast m.delta (1 / alpha) else m.delta
  let x1 := x + alpha • m.update
  let res := m.res - alpha • tmp
  let error := sqrt (res ⬝ᵥ res) / m.rhsNorm
  if error < tol then
    (true, x1, { m with tmp := tmp, res := res, error := error, delta := delta1 })
  else
    let tmp2 := P *ᵥ res
    let absOld := m.absNew
    let absNew := res ⬝ᵥ tmp2
    let beta := absNew / absOld
    let update := tmp2 + beta • m.update
    let delta2 := if calcEigenvals then delta1 ++ [beta / alpha] else delta1
    let gamma2 := if calcEigenvals then m.gamma ++ [-(sqrt beta) / alpha] else m.gamma
    (false, x1, { m with tmp := tmp2, res := res, error := error,
                         update := update, absNew := absNew,
                         delta := delta2, gamma := gamma2 })

/-- Terminal states of the solver base's state machine (spec section 4.1). -/
inductive TerminalState where
  | Converged
  | Exhausted
  | Breakdown
deriving DecidableEq

/-- Modelled from the spec: the iteration loop of `gsIterativeSolver::solve`
(base class, not under src/): "repeatedly invokes the method's `step(x)`
while iteration count `< maxIterations` and state is `Iterating`;
increments the counter after each step; transitions to `Converged` when the
method reports `error < tolerance`; transitions to `Exhausted` if the cap
is reached without convergence."  The CG method's `step` reports only a
converged flag, so the `Breakdown` transition has no trigger here. -/
def solveLoop {n : ℕ} (step : Vec n → CGMembers n → Bool × Vec n × CGMembers n) :
    ℕ → Vec n → CGMembers n → ℕ → Vec n × CGMembers n × ℕ × TerminalState
  | 0, x, m, iters => (x, m, iters, TerminalState.Exhausted)
  | Nat.succ fuel, x, m, iters =>
    match step x m with
    | (true, x1, m1) => (x1, m1, iters + 1, TerminalState.Converged)
    | (false, x1, m1) => solveLoop step fuel x1 m1 (iters + 1)

/-- Modelled from the spec: `gsIterativeSolver::solve` (base class, not
under src/) driving `initIteration` and then the loop of `step` calls;
returns the final iterate, the member state, the iteration count and the
terminal state. -/
def solve {n : ℕ} (A P : Mat n) (sqrt : ℚ → ℚ) (tol : ℚ) (maxIters : ℕ)
    (calcEigenvals : Bool) (rhs x0 : Vec n) (m0 : CGMembers n) :
    Vec n × CGMembers n × ℕ × TerminalState :=
  match cgInit A P sqrt tol calcEigenvals rhs x0 m0 with
  | (true, x1, m1) => (x1, m1, 0, TerminalState.Converged)
  | (false, x1, m1) => solveLoop (cgStep A P sqrt tol calcEigenvals) maxIters x1 m1 0

/-- One iteration of the solver seen as a transformer of the pair
(iterate, members): the value part of `cgStep`, used to speak about the
iterate sequence `x_0, x_1, ...`. -/
def stepIter {n : ℕ} (A P : Mat n) (sqrt : ℚ → ℚ) (tol : ℚ) (calcEigenvals : Bool) :
    Vec n × CGMembers n → Vec n × CGMembers n :=
  fun p => (cgStep A P sqrt tol calcEigenvals p.1 p.2).2

/-- Modelled from the spec: the unpreconditioned CG recurrence of the
claim about the identity preconditioner, "update is taken directly from
the residual" — `initIteration` with `update = r` and `absNew = r·r`. -/
def cgInitNoPrecond {n : ℕ} (A : Mat n) (sqrt : ℚ → ℚ) (tol : ℚ) (calcEigenvals : Bool)
    (rhs x : Vec n) (m : CGMembers n) : Bool × Vec n × CGMembers n :=
  let m1 := if calcEigenvals then { m with delta := [0], gamma := [] } else m
  match baseInitIteration sqrt rhs x m1 with
  | (true, x1, m2) => (true, x1, m2)
  | (false, x1, m2) =>
    let tmp := A *ᵥ x1
    let res := rhs - tmp
    let error := sqrt (res ⬝ᵥ res) / m2.rhsNorm
    if error < tol then
      (true, x1, { m2 with tmp := tmp, res := res, error := error })
    else
      let update := res
      let absNew := res ⬝ᵥ update
      (false, x1, { m2 with tmp := tmp, res := res, error := error,
                            update := update, absNew := absNew })

/-- Modelled from the spec: the unpreconditioned CG step, with the new
search direction built from the residual itself instead of the
preconditioned residual. -/
def cgStepNoPrecond {n : ℕ} (A : Mat n) (sqrt : ℚ → ℚ) (tol : ℚ) (calcEigenvals : Bool)
    (x : Vec n) (m : CGMembers n) : Bool × Vec n × CGMembers n :=
  let tmp := A *ᵥ m.update
  let alpha := m.absNew / (m.update ⬝ᵥ tmp)
  let delta1 := if calcEigenvals then addToLast m.delta (1 / alpha) else m.delta
  let x1 := x + alpha • m.update
  let res := m.res - alpha • tmp
  let error := sqrt (res ⬝ᵥ res) / m.rhsNorm
  if error < tol then
    (true, x1, { m with tmp := tmp, res := res, error := error, delta := delta1 })
  else
    let tmp2 := res
    let absOld := m.absNew
    let absNew := res ⬝ᵥ tmp2
    let beta := absNew / absOld
    let update := tmp2 + beta • m.update
    let delta2 := if calcEigenvals then delta1 ++ [beta / alpha] else delta1
    let gamma2 := if calcEigenvals then m.gamma ++ [-(sqrt beta) / alpha] else m.gamma
    (false, x1, { m with tmp := tmp2, res := res, error := error,
                         update := update, absNew := absNew,
                         delta := delta2, gamma := gamma2 })

/-- The no-preconditioner analogue of `stepIter`. -/
def stepIterNoPrecond {n : ℕ} (A : Mat n) (sqrt : ℚ → ℚ) (tol : ℚ)
    (calcEigenvals : Bool) : Vec n × CGMembers n → Vec n × CGMembers n :=
  fun p => (cgStepNoPrecond A sqrt tol calcEigenvals p.1 p.2).2

/-- A symmetric positive definite rational matrix. -/
def SPD {n : ℕ} (A : Mat n) : Prop :=
  A.IsSymm ∧ ∀ v : Vec n, v ≠ 0 → 0 < v ⬝ᵥ (A *ᵥ v)

/-- The residual-monotonicity claim, formalized: for all SPD operator and
preconditioner, along the states produced by `cgInit` followed by
successive `cgStep`s, the squared residual norm never increases.  (Squares
of the Euclidean norms are compared, which for the nonnegative norm values
is equivalent to comparing the norms themselves.) -/
def residualMonotoneClaim : Prop :=
  ∀ (n : ℕ) (A P : Mat n), SPD A → SPD P →
    ∀ (sqrt : ℚ → ℚ) (tol : ℚ) (calcEigenvals : Bool) (rhs x0 : Vec n)
      (m0 : CGMembers n) (k : ℕ),
      (cgInit A P sqrt tol calcEigenvals rhs x0 m0).1 = false →
      ((stepIter A P sqrt tol calcEigenvals)^[k + 1]
          (cgInit A P sqrt tol calcEigenvals rhs x0 m0).2).2.res ⬝ᵥ
        ((stepIter A P sqrt tol calcEigenvals)^[k + 1]
          (cgInit A P sqrt tol calcEigenvals rhs x0 m0).2).2.res ≤
      ((stepIter A P sqrt tol calcEigenvals)^[k]
          (cgInit A P sqrt tol calcEigenvals rhs x0 m0).2).2.res ⬝ᵥ
        ((stepIter A P sqrt tol calcEigenvals)^[k]
          (cgInit A P sqrt tol calcEigenvals rhs x0 m0).2).2.res

/-- The pure mathematical CG recurrence in exact arithmetic: the pair
(residual, search direction) after `k` iterations, started from the
initial residual `r0`.  This is the recurrence that `cgInit`/`cgStep`
implement on the `res`/`update` members. -/
def cgSeq {n : ℕ} (A P : Mat n) (r0 : Vec n) : ℕ → Vec n × Vec n
  | 0 => (r0, P *ᵥ r0)
  | k + 1 =>
    let r := (cgSeq A P r0 k).1
    let u := (cgSeq A P r0 k).2
    let alpha := (r ⬝ᵥ (P *ᵥ r)) / (u ⬝ᵥ (A *ᵥ u))
    let r1 := r - alpha • (A *ᵥ u)
    let beta := (r1 ⬝ᵥ (P *ᵥ r1)) / (r ⬝ᵥ (P *ᵥ r))
    (r1, (P *ᵥ r1) + beta • u)

/-- The residual of the pure CG recurrence. -/
def rr {n : ℕ} (A P : Mat n) (r0 : Vec n) (k : ℕ) : Vec n := (cgSeq A P r0 k).1

/-- The search direction of the pure CG recurrence. -/
def uu {n : ℕ} (A P : Mat n) (r0 : Vec n) (k : ℕ) : Vec n := (cgSeq A P r0 k).2

/-- The preconditioned inner product `absNew` of the pure recurrence. -/
def aN {n : ℕ} (A P : Mat n) (r0 : Vec n) (k : ℕ) : ℚ :=
  rr A P r0 k ⬝ᵥ (P *ᵥ rr A P r0 k)

/-- The step denominator `update ⬝ᵥ tmp` of the pure recurrence. -/
def dden {n : ℕ} (A P : Mat n) (r0 : Vec n) (k : ℕ) : ℚ :=
  uu A P r0 k ⬝ᵥ (A *ᵥ uu A P r0 k)

/-- The step length `alpha` of the pure recurrence. -/
def alphaQ {n : ℕ} (A P : Mat n) (r0 : Vec n) (k : ℕ) : ℚ :=
  aN A P r0 k / dden A P r0 k

/-- The direction coefficient `beta` of the pure recurrence. -/
def betaQ {n : ℕ} (A P : Mat n) (r0 : Vec n) (k : ℕ) : ℚ :=
  aN A P r0 (k + 1) / aN A P r0 k

/-- Modelled from the spec: the symmetric tridiagonal matrix built by
`gsLanczosMatrix` (not under src/) from the recorded trace: size
`len(delta)`, diagonal entries from `delta`, off-diagonal entries from
`gamma`. -/
def lanczosMatrixForm (gamma delta : List ℚ) :
    Matrix (Fin delta.length) (Fin delta.length) ℚ := fun i j =>
  if i = j then delta.get i
  else if (i : ℕ) + 1 = (j : ℕ) then gamma.getD (i : ℕ) 0
  else if (j : ℕ) + 1 = (i : ℕ) then gamma.getD (j : ℕ) 0
  else 0

/-- Shallow embedding of `gsConjugateGradient::getConditionNumber`
(src/src/gsSolver/gsConjugateGradient.cpp lines 84-95).  The extreme
eigenvalues of the Lanczos matrix (`gsLanczosMatrix::maxEigenvalue` /
`minEigenvalue`, not under src/) are abstracted as the function
parameters `maxEig`, `minEig` of the recorded trace. -/
def getConditionNumber {n : ℕ} (maxEig minEig : List ℚ → List ℚ → ℚ)
    (m : CGMembers n) : ℚ :=
  if m.delta = [] then -1
  else maxEig m.gamma m.delta / minEig m.gamma m.delta

/-- Shallow embedding of `gsConjugateGradient::getEigenvalues`
(src/src/gsSolver/gsConjugateGradient.cpp lines 97-113).  The symmetric
eigensolver applied to the matrix form of the Lanczos matrix (Eigen's
`SelfAdjEigenSolver`, external) is abstracted as the parameter `es`. -/
def getEigenvalues {n : ℕ} (es : (k : ℕ) → Matrix (Fin k) (Fin k) ℚ → List ℚ)
    (m : CGMembers n) : List ℚ :=
  if m.delta = [] then []
  else es m.delta.length (lanczosMatrixForm m.gamma m.delta)

/-! ## Helper lemmas -/

/-- `addToLast` never changes the length of the trace. -/
theorem addToLast_length (l : List ℚ) (q : ℚ) : (addToLast l q).length = l.length := by
  induction l with
  | nil => rfl
  | cons a rest ih =>
    cases rest with
    | nil => rfl
    | cons b r => simp only [addToLast, List.length_cons] at ih ⊢; omega

/-- With tracking enabled, `initIteration` always leaves the trivial trace
`delta = [0]`, `gamma = []`, in all of its return paths (zero right-hand
side, initial guess already within tolerance, or normal start). -/
theorem cgInit_true_trace {n : ℕ} (A P : Mat n) (sqrt : ℚ → ℚ) (tol : ℚ)
    (rhs x0 : Vec n) (m0 : CGMembers n) :
    (cgInit A P sqrt tol true rhs x0 m0).2.2.delta = [0] ∧
    (cgInit A P sqrt tol true rhs x0 m0).2.2.gamma = [] := by
  unfold cgInit baseInitIteration
  simp only [ite_true]
  split
  next h =>
    split at h
    · simp only [Prod.mk.injEq] at h
      obtain ⟨-, -, rfl⟩ := h
      simp
    · exact absurd (congrArg Prod.fst h) (by simp)
  next h =>
    split at h
    · exact absurd (congrArg Prod.fst h) (by simp)
    · simp only [Prod.mk.injEq] at h
      obtain ⟨-, -, rfl⟩ := h
      split <;> simp

/-- The solve loop can only end in `Converged` or `Exhausted`: nothing
feeds its `Breakdown` transition. -/
theorem solveLoop_ne_breakdown {n : ℕ}
    (step : Vec n → CGMembers n → Bool × Vec n × CGMembers n) :
    ∀ (fuel : ℕ) (x : Vec n) (m : CGMembers n) (iters : ℕ),
      (solveLoop step fuel x m iters).2.2.2 ≠ TerminalState.Breakdown := by
  intro fuel
  induction fuel with
  | zero => intro x m iters h; exact TerminalState.noConfusion h
  | succ fuel ih =>
    intro x m iters
    simp only [solveLoop]
    rcases step x m with ⟨b, x1, m1⟩
    cases b
    · exact ih x1 m1 (iters + 1)
    · intro h; exact TerminalState.noConfusion h

/-! ## Claim C1 -/

/-- C1 (counterexample): a concrete run in which the first step's
denominator `update ⬝ᵥ tmp` equals `0` — certainly at or below any
numerical-breakdown threshold — yet `solve` does not terminate with
`Breakdown` and does not stop at that step: it runs both permitted
iterations and returns `Exhausted`. -/
theorem C1_counterexample :
    ((cgInit (0 : Mat 1) 1 id (1/2) false ![1] 0 ⟨0, 0, 0, 0, 0, 0, [], []⟩).1 = false ∧
      ((cgInit (0 : Mat 1) 1 id (1/2) false ![1] 0 ⟨0, 0, 0, 0, 0, 0, [], []⟩).2.2.update ⬝ᵥ
        ((0 : Mat 1) *ᵥ (cgInit (0 : Mat 1) 1 id (1/2) false ![1] 0
          ⟨0, 0, 0, 0, 0, 0, [], []⟩).2.2.update)) = 0) ∧
    (solve (0 : Mat 1) 1 id (1/2) 2 false ![1] 0 ⟨0, 0, 0, 0, 0, 0, [], []⟩).2.2.2 =
      TerminalState.Exhausted ∧
    (solve (0 : Mat 1) 1 id (1/2) 2 false ![1] 0 ⟨0, 0, 0, 0, 0, 0, [], []⟩).2.2.1 = 2 := by
  norm_num [solve, cgInit, baseInitIteration, cgStep, solveLoop,
    Matrix.dotProduct, Matrix.mulVec, Fin.sum_univ_one]

/-- C1 (amended): the CG step performs no breakdown detection at all —
`alpha` and `beta` are formed by plain division whatever the denominators
`update ⬝ᵥ tmp` and `absOld` are — and the solve built on it never reports
the terminal state `Breakdown`; its only terminal states are `Converged`
and `Exhausted`. -/
theorem C1_amended {n : ℕ} (A P : Mat n) (sqrt : ℚ → ℚ) (tol : ℚ) (maxIters : ℕ)
    (calcEigenvals : Bool) (rhs x0 : Vec n) (m0 : CGMembers n) :
    (solve A P sqrt tol maxIters calcEigenvals rhs x0 m0).2.2.2 ≠ TerminalState.Breakdown := by
  unfold solve
  rcases h : cgInit A P sqrt tol calcEigenvals rhs x0 m0 with ⟨b, x1, m1⟩
  cases b
  · exact solveLoop_ne_breakdown _ maxIters x1 m1 0
  · intro hx; exact TerminalState.noConfusion hx

/-! ## Claim C2 -/

/-- C2: with spectrum tracking enabled, `initIteration` establishes
`delta` of length 1 and `gamma = []`; a step that reports convergence only
updates `delta`'s last element in place (lengths unchanged, `gamma`
untouched); a step that does not report convergence appends exactly one
element to each sequence; hence the invariant
`len(delta) = len(gamma) + 1` is preserved by every step. -/
theorem C2_trace_invariant {n : ℕ} (A P : Mat n) (sqrt : ℚ → ℚ) (tol : ℚ)
    (rhs x0 x : Vec n) (m m0 : CGMembers n) :
    ((cgInit A P sqrt tol true rhs x0 m0).2.2.delta.length = 1 ∧
      (cgInit A P sqrt tol true rhs x0 m0).2.2.gamma = []) ∧
    ((cgStep A P sqrt tol true x m).1 = true →
      (cgStep A P sqrt tol true x m).2.2.delta.length = m.delta.length ∧
      (cgStep A P sqrt tol true x m).2.2.gamma = m.gamma) ∧
    ((cgStep A P sqrt tol true x m).1 = false →
      (cgStep A P sqrt tol true x m).2.2.delta.length = m.delta.length + 1 ∧
      (cgStep A P sqrt tol true x m).2.2.gamma.length = m.gamma.length + 1) ∧
    (m.delta.length = m.gamma.length + 1 →
      (cgStep A P sqrt tol true x m).2.2.delta.length =
        (cgStep A P sqrt tol true x m).2.2.gamma.length + 1) := by
  refine ⟨?_, ?_, ?_, ?_⟩
  · obtain ⟨h1, h2⟩ := cgInit_true_trace A P sqrt tol rhs x0 m0
    rw [h1, h2]; simp
  · unfold cgStep
    simp only [ite_true]
    split <;> simp [addToLast_length]
  · unfold cgStep
    simp only [ite_true]
    split <;> simp [addToLast_length]
  · intro hinv
    unfold cgStep
    simp only [ite_true]
    split <;> simp [addToLast_length, hinv]

/-- C2 (witness): the trace bookkeeping at a concrete non-converging
step: length of `delta` grows from 1 to 2, length of `gamma` from 0
to 1. -/
theorem C2_trace_invariant_witness :
    (cgStep !![(2:ℚ)] 1 id (1/100) true ![0]
        ⟨![1], ![3], 0, 1, 1, 1, [0], []⟩).2.2.delta.length = 1 + 1 ∧
    (cgStep !![(2:ℚ)] 1 id (1/100) true ![0]
        ⟨![1], ![3], 0, 1, 1, 1, [0], []⟩).2.2.gamma.length = 0 + 1 := by
  have h := (C2_trace_invariant !![(2:ℚ)] 1 id (1/100) ![1] 0 ![0]
      ⟨![1], ![3], 0, 1, 1, 1, [0], []⟩ ⟨![1], ![3], 0, 1, 1, 1, [0], []⟩).2.2.1
    (by norm_num [cgStep, Matrix.dotProduct, Matrix.mulVec, Fin.sum_univ_one,
          Matrix.vecHead, Matrix.vecTail, Function.comp, Pi.smul_apply, smul_eq_mul])
  simpa using h

/-! ## Claim C6 -/

/-- C6: with spectrum tracking enabled, every step adds `1/alpha` to the
last element of `delta` right after computing
`alpha = absNew / (update ⬝ᵥ tmp)`, and every non-converging step
additionally appends `beta/alpha` to `delta` and `-sqrt(beta)/alpha` to
`gamma`, where `beta = absNew'/absOld` with `absNew'` the updated
preconditioned inner product and `absOld` the value of `absNew` at entry. -/
theorem C6_trace_formulas {n : ℕ} (A P : Mat n) (sqrt : ℚ → ℚ) (tol : ℚ)
    (x : Vec n) (m : CGMembers n) :
    let tmp := A *ᵥ m.update
    let alpha := m.absNew / (m.update ⬝ᵥ tmp)
    let res := m.res - alpha • tmp
    let beta := (res ⬝ᵥ (P *ᵥ res)) / m.absNew
    ((cgStep A P sqrt tol true x m).1 = true →
      (cgStep A P sqrt tol true x m).2.2.delta = addToLast m.delta (1 / alpha) ∧
      (cgStep A P sqrt tol true x m).2.2.gamma = m.gamma) ∧
    ((cgStep A P sqrt tol true x m).1 = false →
      (cgStep A P sqrt tol true x m).2.2.delta =
        addToLast m.delta (1 / alpha) ++ [beta / alpha] ∧
      (cgStep A P sqrt tol true x m).2.2.gamma = m.gamma ++ [-(sqrt beta) / alpha]) := by
  unfold cgStep
  simp only [ite_true]
  split <;> simp

/-- C6 (witness): at a concrete converging step with `alpha = 1/2` the
last element of `delta` is increased by `1/alpha = 2` and `gamma` is left
alone. -/
theorem C6_trace_formulas_witness :
    (cgStep !![(2:ℚ)] 1 id (1/1000) true ![0]
        ⟨![1], ![1], 0, 1, 1, 1, [0], []⟩).2.2.delta = [2] ∧
    (cgStep !![(2:ℚ)] 1 id (1/1000) true ![0]
        ⟨![1], ![1], 0, 1, 1, 1, [0], []⟩).2.2.gamma = [] := by
  have h := (C6_trace_formulas !![(2:ℚ)] 1 id (1/1000) ![0]
      ⟨![1], ![1], 0, 1, 1, 1, [0], []⟩).1
    (by norm_num [cgStep, Matrix.dotProduct, Matrix.mulVec, Fin.sum_univ_one,
          Matrix.vecHead, Matrix.vecTail, Function.comp, Pi.smul_apply, smul_eq_mul])
  rw [h.1, h.2]
  norm_num [addToLast, Matrix.dotProduct, Matrix.mulVec, Fin.sum_univ_one,
    Matrix.vecHead, Matrix.vecTail, Function.comp]

/-! ## Claims C3 and C9: the spectral estimator -/

/-- With tracking disabled, a step never touches the trace. -/
theorem cgStep_false_trace {n : ℕ} (A P : Mat n) (sqrt : ℚ → ℚ) (tol : ℚ)
    (x : Vec n) (m : CGMembers n) :
    (cgStep A P sqrt tol false x m).2.2.delta = m.delta ∧
    (cgStep A P sqrt tol false x m).2.2.gamma = m.gamma := by
  unfold cgStep
  simp only [Bool.false_eq_true, if_false]
  split <;> simp

/-- With tracking disabled, `initIteration` never touches the trace. -/
theorem cgInit_false_trace {n : ℕ} (A P : Mat n) (sqrt : ℚ → ℚ) (tol : ℚ)
    (rhs x0 : Vec n) (m0 : CGMembers n) :
    (cgInit A P sqrt tol false rhs x0 m0).2.2.delta = m0.delta ∧
    (cgInit A P sqrt tol false rhs x0 m0).2.2.gamma = m0.gamma := by
  unfold cgInit baseInitIteration
  simp only [Bool.false_eq_true, if_false]
  split
  next h =>
    split at h
    · simp only [Prod.mk.injEq] at h
      obtain ⟨-, -, rfl⟩ := h
      simp
    · exact absurd (congrArg Prod.fst h) (by simp)
  next h =>
    split at h
    · exact absurd (congrArg Prod.fst h) (by simp)
    · simp only [Prod.mk.injEq] at h
      obtain ⟨-, -, rfl⟩ := h
      split <;> simp

/-- A solve loop whose step preserves `delta` preserves `delta`. -/
theorem solveLoop_delta {n : ℕ} (step : Vec n → CGMembers n → Bool × Vec n × CGMembers n)
    (hstep : ∀ x m, (step x m).2.2.delta = m.delta) :
    ∀ (fuel : ℕ) (x : Vec n) (m : CGMembers n) (iters : ℕ),
      (solveLoop step fuel x m iters).2.1.delta = m.delta := by
  intro fuel
  induction fuel with
  | zero => intro x m iters; rfl
  | succ fuel ih =>
    intro x m iters
    simp only [solveLoop]
    rcases h : step x m with ⟨b, x1, m1⟩
    have hd : m1.delta = m.delta := by
      have := hstep x m; rwa [h] at this
    cases b
    · simp only []
      rw [ih x1 m1 (iters + 1), hd]
    · simpa using hd

/-- C3: `getConditionNumber` returns the sentinel `-1` exactly when the
recorded `delta` sequence is empty — in particular after any `solve` run
with tracking disabled that started from an empty trace — and otherwise
returns `maxEigenvalue/minEigenvalue` of the tridiagonal matrix built
from the recorded `gamma` and `delta` (the extreme-eigenvalue routines of
the external `gsLanczosMatrix` being abstracted as `maxEig`/`minEig`). -/
theorem C3_condition_number {n : ℕ} (maxEig minEig : List ℚ → List ℚ → ℚ)
    (m : CGMembers n) (A P : Mat n) (sqrt : ℚ → ℚ) (tol : ℚ) (maxIters : ℕ)
    (rhs x0 : Vec n) (m0 : CGMembers n) :
    (m.delta = [] → getConditionNumber maxEig minEig m = -1) ∧
    (m.delta ≠ [] →
      getConditionNumber maxEig minEig m =
        maxEig m.gamma m.delta / minEig m.gamma m.delta) ∧
    (m0.delta = [] →
      getConditionNumber maxEig minEig
        (solve A P sqrt tol maxIters false rhs x0 m0).2.1 = -1) := by
  refine ⟨?_, ?_, ?_⟩
  · intro h; simp [getConditionNumber, h]
  · intro h; simp [getConditionNumber, h]
  · intro h
    have hend : (solve A P sqrt tol maxIters false rhs x0 m0).2.1.delta = [] := by
      unfold solve
      rcases hi : cgInit A P sqrt tol false rhs x0 m0 with ⟨b, x1, m1⟩
      have hd : m1.delta = m0.delta := by
        have := (cgInit_false_trace A P sqrt tol rhs x0 m0).1; rwa [hi] at this
      cases b
      · simp only []
        rw [solveLoop_delta _ (fun x mm => (cgStep_false_trace A P sqrt tol x mm).1)
            maxIters x1 m1 0, hd, h]
      · simpa using hd.trans h
    simp [getConditionNumber, hend]

/-- C3 (witness): the sentinel on an empty trace, and the ratio on the
trace `delta = [0]` with concrete extreme-eigenvalue functions. -/
theorem C3_condition_number_witness :
    getConditionNumber (fun _ _ => (9:ℚ)) (fun _ _ => 1)
      (⟨0, 0, 0, 0, 0, 0, [], []⟩ : CGMembers 1) = -1 ∧
    getConditionNumber (fun _ _ => (9:ℚ)) (fun _ _ => 1)
      (⟨0, 0, 0, 0, 0, 0, [0], []⟩ : CGMembers 1) = 9 / 1 := by
  constructor
  · exact (C3_condition_number (fun _ _ => (9:ℚ)) (fun _ _ => 1)
      (⟨0, 0, 0, 0, 0, 0, [], []⟩ : CGMembers 1) (0 : Mat 1) 1 id 1 1 ![1] 0
      ⟨0, 0, 0, 0, 0, 0, [], []⟩).1 rfl
  · exact (C3_condition_number (fun _ _ => (9:ℚ)) (fun _ _ => 1)
      (⟨0, 0, 0, 0, 0, 0, [0], []⟩ : CGMembers 1) (0 : Mat 1) 1 id 1 1 ![1] 0
      ⟨0, 0, 0, 0, 0, 0, [], []⟩).2.1 (by simp)

/-- C9: `getEigenvalues` returns the empty sequence exactly when the
recorded `delta` is empty, and otherwise the eigenvalue list that the
(abstracted, external) symmetric tridiagonal eigensolver `es` produces on
the matrix form of the recorded trace; whenever `es` returns ascending
lists (Eigen's `SelfAdjEigenSolver` contract), so does `getEigenvalues`. -/
theorem C9_eigenvalues_shape {n : ℕ} (es : (k : ℕ) → Matrix (Fin k) (Fin k) ℚ → List ℚ)
    (m : CGMembers n) :
    (m.delta = [] → getEigenvalues es m = []) ∧
    (m.delta ≠ [] →
      getEigenvalues es m = es m.delta.length (lanczosMatrixForm m.gamma m.delta)) ∧
    ((∀ (k : ℕ) (M : Matrix (Fin k) (Fin k) ℚ), (es k M).Sorted (· ≤ ·)) →
      (getEigenvalues es m).Sorted (· ≤ ·)) := by
  refine ⟨?_, ?_, ?_⟩
  · intro h; simp [getEigenvalues, h]
  · intro h; simp [getEigenvalues, h]
  · intro hsorted
    unfold getEigenvalues
    split
    · exact List.sorted_nil
    · exact hsorted _ _

/-- C9 (witness): evaluation of both branches for a concrete eigensolver
abstraction. -/
theorem C9_eigenvalues_shape_witness :
    getEigenvalues (fun _ _ => []) (⟨0, 0, 0, 0, 0, 0, [], []⟩ : CGMembers 1) = [] ∧
    getEigenvalues (fun _ _ => []) (⟨0, 0, 0, 0, 0, 0, [0], []⟩ : CGMembers 1) = [] ∧
    (getEigenvalues (fun _ _ => []) (⟨0, 0, 0, 0, 0, 0, [0], []⟩ : CGMembers 1)).Sorted (· ≤ ·) := by
  refine ⟨(C9_eigenvalues_shape (fun _ _ => []) _).1 rfl, ?_,
    (C9_eigenvalues_shape (fun _ _ => []) _).2.2 (fun _ _ => List.sorted_nil)⟩
  have h := (C9_eigenvalues_shape (fun _ _ => ([] : List ℚ))
    (⟨0, 0, 0, 0, 0, 0, [0], []⟩ : CGMembers 1)).2.1 (by simp)
  simpa using h

/-! ## Claim C7 -/

/-- C7: with a zero right-hand side, `solve` returns the zero vector,
reports `Converged`, uses `0` iterations and reports error `0`, for every
operator, preconditioner and initial guess (no step is ever executed, so
no recurrence division is reached). -/
theorem C7_zero_rhs {n : ℕ} (A P : Mat n) (sqrt : ℚ → ℚ) (tol : ℚ) (maxIters : ℕ)
    (calcEigenvals : Bool) (x0 : Vec n) (m0 : CGMembers n) (hs : sqrt 0 = 0) :
    (solve A P sqrt tol maxIters calcEigenvals (0 : Vec n) x0 m0).1 = 0 ∧
    (solve A P sqrt tol maxIters calcEigenvals (0 : Vec n) x0 m0).2.2.1 = 0 ∧
    (solve A P sqrt tol maxIters calcEigenvals (0 : Vec n) x0 m0).2.2.2 =
      TerminalState.Converged ∧
    (solve A P sqrt tol maxIters calcEigenvals (0 : Vec n) x0 m0).2.1.error = 0 := by
  unfold solve cgInit baseInitIteration
  simp [Matrix.zero_dotProduct, hs]

/-- C7 (witness): the zero-right-hand-side short circuit on a concrete
system. -/
theorem C7_zero_rhs_witness :
    (solve !![(2:ℚ)] 1 id (1/2) 3 false (0 : Vec 1) ![5] ⟨0, 0, 0, 0, 0, 0, [], []⟩).1 = 0 ∧
    (solve !![(2:ℚ)] 1 id (1/2) 3 false (0 : Vec 1) ![5] ⟨0, 0, 0, 0, 0, 0, [], []⟩).2.2.1 = 0 ∧
    (solve !![(2:ℚ)] 1 id (1/2) 3 false (0 : Vec 1) ![5]
      ⟨0, 0, 0, 0, 0, 0, [], []⟩).2.2.2 = TerminalState.Converged ∧
    (solve !![(2:ℚ)] 1 id (1/2) 3 false (0 : Vec 1) ![5]
      ⟨0, 0, 0, 0, 0, 0, [], []⟩).2.1.error = 0 :=
  C7_zero_rhs !![(2:ℚ)] 1 id (1/2) 3 false ![5] ⟨0, 0, 0, 0, 0, 0, [], []⟩ rfl

/-! ## Claim C10 -/

/-- C10: with tracking enabled, `initIteration` leaves the trace as
`delta = [0]`, `gamma = []` in every return path; consequently, whenever
the solve converges before any step completes — `initIteration` reporting
immediate convergence covers both early paths the claim names, the zero
right-hand side and an initial guess already within tolerance — the
result has `0` iterations, the trivial trace, and a subsequent
`getConditionNumber` does not take the empty-trace sentinel branch but
forms the ratio of the abstracted extreme eigenvalues of `delta = [0]`,
`gamma = []`.  The zero-right-hand-side instance is restated explicitly
as the last conjunct. -/
theorem C10_trivial_trace {n : ℕ} (A P : Mat n) (sqrt : ℚ → ℚ) (tol : ℚ) (maxIters : ℕ)
    (rhs x0 : Vec n) (m0 : CGMembers n) (maxEig minEig : List ℚ → List ℚ → ℚ)
    (hs : sqrt 0 = 0) :
    ((cgInit A P sqrt tol true rhs x0 m0).2.2.delta = [0] ∧
     (cgInit A P sqrt tol true rhs x0 m0).2.2.gamma = []) ∧
    ((cgInit A P sqrt tol true rhs x0 m0).1 = true →
      (solve A P sqrt tol maxIters true rhs x0 m0).2.2.1 = 0 ∧
      (solve A P sqrt tol maxIters true rhs x0 m0).2.2.2 = TerminalState.Converged ∧
      (solve A P sqrt tol maxIters true rhs x0 m0).2.1.delta = [0] ∧
      (solve A P sqrt tol maxIters true rhs x0 m0).2.1.gamma = [] ∧
      getConditionNumber maxEig minEig (solve A P sqrt tol maxIters true rhs x0 m0).2.1 =
        maxEig [] [0] / minEig [] [0]) ∧
    ((solve A P sqrt tol maxIters true (0 : Vec n) x0 m0).2.2.1 = 0 ∧
     (solve A P sqrt tol maxIters true (0 : Vec n) x0 m0).2.2.2 = TerminalState.Converged ∧
     (solve A P sqrt tol maxIters true (0 : Vec n) x0 m0).2.1.delta = [0] ∧
     (solve A P sqrt tol maxIters true (0 : Vec n) x0 m0).2.1.gamma = [] ∧
     getConditionNumber maxEig minEig
        (solve A P sqrt tol maxIters true (0 : Vec n) x0 m0).2.1 =
      maxEig [] [0] / minEig [] [0]) := by
  refine ⟨cgInit_true_trace A P sqrt tol rhs x0 m0, ?_, ?_⟩
  · intro h
    obtain ⟨hd, hg⟩ := cgInit_true_trace A P sqrt tol rhs x0 m0
    unfold solve
    rcases hi : cgInit A P sqrt tol true rhs x0 m0 with ⟨b, x1, m1⟩
    rw [hi] at h hd hg
    cases b
    · simp at h
    · have hd1 : m1.delta = [0] := hd
      have hg1 : m1.gamma = [] := hg
      exact ⟨rfl, rfl, hd1, hg1, by simp [getConditionNumber, hd1, hg1]⟩
  · unfold solve cgInit baseInitIteration
    simp [Matrix.zero_dotProduct, hs, getConditionNumber]

/-- C10 (witness): the trivial trace and the non-sentinel condition number
after a solve that converges at `initIteration` through the
guess-already-within-tolerance path: `rhs = [4] ≠ 0` and `x0 = [2]` is
the exact solution of `2x = 4`, so the initial residual is zero while
`rhsNorm = 16 ≠ 0`. -/
theorem C10_trivial_trace_witness :
    (solve !![(2:ℚ)] 1 id (1/2) 3 true ![4] ![2] ⟨0, 0, 0, 0, 0, 0, [], []⟩).2.2.1 = 0 ∧
    (solve !![(2:ℚ)] 1 id (1/2) 3 true ![4] ![2]
      ⟨0, 0, 0, 0, 0, 0, [], []⟩).2.2.2 = TerminalState.Converged ∧
    (solve !![(2:ℚ)] 1 id (1/2) 3 true ![4] ![2]
      ⟨0, 0, 0, 0, 0, 0, [], []⟩).2.1.delta = [0] ∧
    (solve !![(2:ℚ)] 1 id (1/2) 3 true ![4] ![2]
      ⟨0, 0, 0, 0, 0, 0, [], []⟩).2.1.gamma = [] ∧
    getConditionNumber (fun _ _ => (9:ℚ)) (fun _ _ => 1)
        (solve !![(2:ℚ)] 1 id (1/2) 3 true ![4] ![2]
          ⟨0, 0, 0, 0, 0, 0, [], []⟩).2.1 = 9 / 1 :=
  (C10_trivial_trace !![(2:ℚ)] 1 id (1/2) 3 ![4] ![2] ⟨0, 0, 0, 0, 0, 0, [], []⟩
      (fun _ _ => (9:ℚ)) (fun _ _ => 1) rfl).2.1
    (by norm_num [cgInit, baseInitIteration, Matrix.dotProduct, Matrix.mulVec,
          Fin.sum_univ_one])

/-! ## Claim C8 -/

/-- C8: with the identity preconditioner the initializer, the step, and
hence the whole iterate sequence `x_0, x_1, ...` coincide exactly with the
unpreconditioned CG recurrence in which the search direction is built
directly from the residual. -/
theorem C8_identity_precond {n : ℕ} (A : Mat n) (sqrt : ℚ → ℚ) (tol : ℚ)
    (calcEigenvals : Bool) (rhs x0 x : Vec n) (m m0 : CGMembers n) (k : ℕ) :
    cgInit A 1 sqrt tol calcEigenvals rhs x0 m0 =
      cgInitNoPrecond A sqrt tol calcEigenvals rhs x0 m0 ∧
    cgStep A 1 sqrt tol calcEigenvals x m =
      cgStepNoPrecond A sqrt tol calcEigenvals x m ∧
    (stepIter A 1 sqrt tol calcEigenvals)^[k]
        (cgInit A 1 sqrt tol calcEigenvals rhs x0 m0).2 =
      (stepIterNoPrecond A sqrt tol calcEigenvals)^[k]
        (cgInitNoPrecond A sqrt tol calcEigenvals rhs x0 m0).2 := by
  have hstep : ∀ (y : Vec n) (mm : CGMembers n),
      cgStep A 1 sqrt tol calcEigenvals y mm = cgStepNoPrecond A sqrt tol calcEigenvals y mm := by
    intro y mm
    unfold cgStep cgStepNoPrecond
    simp only [Matrix.one_mulVec]
  have hinit : cgInit A 1 sqrt tol calcEigenvals rhs x0 m0 =
      cgInitNoPrecond A sqrt tol calcEigenvals rhs x0 m0 := by
    unfold cgInit cgInitNoPrecond
    simp only [Matrix.one_mulVec]
  refine ⟨hinit, hstep x m, ?_⟩
  have hfun : stepIter A 1 sqrt tol calcEigenvals = stepIterNoPrecond A sqrt tol calcEigenvals := by
    funext p
    unfold stepIter stepIterNoPrecond
    rw [hstep p.1 p.2]
  rw [hfun, hinit]

/-! ## Characterization lemmas for the init and step transformers -/

/-- The dot square of a nonzero rational vector is positive. -/
theorem dotProduct_self_pos {n : ℕ} {v : Vec n} (hv : v ≠ 0) : 0 < v ⬝ᵥ v := by
  have h0 : 0 ≤ v ⬝ᵥ v := Finset.sum_nonneg fun i _ => mul_self_nonneg (v i)
  rcases h0.lt_or_eq with h | h
  · exact h
  · exact absurd (Matrix.dotProduct_self_eq_zero.mp h.symm) hv

/-- Characterization of a successful (non-converged) `initIteration`. -/
theorem cgInit_false_char {n : ℕ} (A P : Mat n) (sqrt : ℚ → ℚ) (tol : ℚ)
    (calcEigenvals : Bool) (rhs x0 : Vec n) (m0 : CGMembers n)
    (h : (cgInit A P sqrt tol calcEigenvals rhs x0 m0).1 = false) :
    (cgInit A P sqrt tol calcEigenvals rhs x0 m0).2.1 = x0 ∧
    (cgInit A P sqrt tol calcEigenvals rhs x0 m0).2.2.res = rhs - A *ᵥ x0 ∧
    (cgInit A P sqrt tol calcEigenvals rhs x0 m0).2.2.update = P *ᵥ (rhs - A *ᵥ x0) ∧
    (cgInit A P sqrt tol calcEigenvals rhs x0 m0).2.2.absNew =
      (rhs - A *ᵥ x0) ⬝ᵥ (P *ᵥ (rhs - A *ᵥ x0)) ∧
    (cgInit A P sqrt tol calcEigenvals rhs x0 m0).2.2.rhsNorm = sqrt (rhs ⬝ᵥ rhs) := by
  cases calcEigenvals <;>
  · unfold cgInit baseInitIteration at h ⊢
    simp only [Bool.false_eq_true, if_false, ite_true] at h ⊢
    split at h
    next heq => simp at h
    next heq =>
      split at heq
      · exact absurd (congrArg Prod.fst heq) (by simp)
      · simp only [Prod.mk.injEq] at heq
        obtain ⟨-, rfl, rfl⟩ := heq
        split
        next hc =>
          rw [if_pos hc] at h
          simp at h
        next hc => simp

/-- The residual and iterate produced by a step, and the persistence of
`rhsNorm`, independent of the convergence branch. -/
theorem cgStep_res_char {n : ℕ} (A P : Mat n) (sqrt : ℚ → ℚ) (tol : ℚ)
    (calcEigenvals : Bool) (x : Vec n) (m : CGMembers n) :
    (cgStep A P sqrt tol calcEigenvals x m).2.2.res =
      m.res - (m.absNew / (m.update ⬝ᵥ (A *ᵥ m.update))) • (A *ᵥ m.update) ∧
    (cgStep A P sqrt tol calcEigenvals x m).2.1 =
      x + (m.absNew / (m.update ⬝ᵥ (A *ᵥ m.update))) • m.update ∧
    (cgStep A P sqrt tol calcEigenvals x m).2.2.rhsNorm = m.rhsNorm := by
  cases calcEigenvals <;>
  · unfold cgStep
    simp only [Bool.false_eq_true, if_false, ite_true]
    split <;> simp

/-- Characterization of the search direction and inner product after a
non-converging step. -/
theorem cgStep_false_char {n : ℕ} (A P : Mat n) (sqrt : ℚ → ℚ) (tol : ℚ)
    (calcEigenvals : Bool) (x : Vec n) (m : CGMembers n)
    (h : (cgStep A P sqrt tol calcEigenvals x m).1 = false) :
    (cgStep A P sqrt tol calcEigenvals x m).2.2.update =
      P *ᵥ (m.res - (m.absNew / (m.update ⬝ᵥ (A *ᵥ m.update))) • (A *ᵥ m.update)) +
        (((m.res - (m.absNew / (m.update ⬝ᵥ (A *ᵥ m.update))) • (A *ᵥ m.update)) ⬝ᵥ
            (P *ᵥ (m.res - (m.absNew / (m.update ⬝ᵥ (A *ᵥ m.update))) • (A *ᵥ m.update)))) /
          m.absNew) • m.update ∧
    (cgStep A P sqrt tol calcEigenvals x m).2.2.absNew =
      (m.res - (m.absNew / (m.update ⬝ᵥ (A *ᵥ m.update))) • (A *ᵥ m.update)) ⬝ᵥ
        (P *ᵥ (m.res - (m.absNew / (m.update ⬝ᵥ (A *ᵥ m.update))) • (A *ᵥ m.update))) := by
  cases calcEigenvals <;>
  · unfold cgStep at h ⊢
    simp only [Bool.false_eq_true, if_false, ite_true] at h ⊢
    split at h
    next hc => simp at h
    next hc =>
      rw [if_neg hc]
      simp

/-- The convergence report of a step is exactly the error test on the
updated residual. -/
theorem cgStep_fst_iff {n : ℕ} (A P : Mat n) (sqrt : ℚ → ℚ) (tol : ℚ)
    (calcEigenvals : Bool) (x : Vec n) (m : CGMembers n) :
    (cgStep A P sqrt tol calcEigenvals x m).1 = true ↔
      sqrt ((m.res - (m.absNew / (m.update ⬝ᵥ (A *ᵥ m.update))) • (A *ᵥ m.update)) ⬝ᵥ
          (m.res - (m.absNew / (m.update ⬝ᵥ (A *ᵥ m.update))) • (A *ᵥ m.update))) /
        m.rhsNorm < tol := by
  cases calcEigenvals <;>
  · unfold cgStep
    simp only [Bool.false_eq_true, if_false, ite_true]
    split
    next hc => simpa using hc
    next hc => simpa using hc

/-! ## Claim C4 -/

/-- The identity matrix is symmetric positive definite. -/
theorem SPD_one {n : ℕ} : SPD (1 : Mat n) := by
  refine ⟨Matrix.isSymm_one, fun v hv => ?_⟩
  rw [Matrix.one_mulVec]
  exact dotProduct_self_pos hv

/-- `diag(1, 10)` is symmetric positive definite. -/
theorem SPD_diag_example : SPD (!![1, 0; 0, 10] : Mat 2) := by
  constructor
  · ext i j
    fin_cases i <;> fin_cases j <;> simp [Matrix.transpose]
  · intro v hv
    have h1 : v ⬝ᵥ ((!![1, 0; 0, 10] : Mat 2) *ᵥ v) = v 0 * v 0 + 10 * (v 1 * v 1) := by
      simp [Matrix.dotProduct, Matrix.mulVec, Fin.sum_univ_two]
      ring
    rw [h1]
    have hne : v 0 ≠ 0 ∨ v 1 ≠ 0 := by
      by_contra hc
      push_neg at hc
      exact hv (funext fun i => by fin_cases i <;> simp [hc.1, hc.2])
    rcases hne with h | h
    · nlinarith [mul_self_nonneg (v 1), mul_self_pos.mpr h]
    · nlinarith [mul_self_nonneg (v 0), mul_self_pos.mpr h]

/-- C4 (counterexample): residual-norm monotonicity fails on the SPD
system `A = diag(1, 10)`, `M = I`, `rhs = (3, 2)`, `x0 = 0`: the first
step raises the squared residual norm from `13` to `37908/2401 ≈ 15.8`. -/
theorem C4_counterexample : ¬ residualMonotoneClaim := by
  intro h
  have := h 2 !![1, 0; 0, 10] 1 SPD_diag_example SPD_one id (1/100) false ![3, 2] 0
    ⟨0, 0, 0, 0, 0, 0, [], []⟩ 0
    (by norm_num [cgInit, baseInitIteration, Matrix.dotProduct, Matrix.mulVec,
          Fin.sum_univ_two])
  rw [Function.iterate_one, Function.iterate_zero, id_eq] at this
  norm_num [stepIter, cgInit, cgStep, baseInitIteration,
    Matrix.dotProduct, Matrix.mulVec, Fin.sum_univ_two,
    Matrix.vecHead, Matrix.vecTail, Function.comp, Pi.smul_apply, smul_eq_mul] at this

/-- The new residual of a step is orthogonal to the direction travelled,
provided the state is consistent (`absNew = res ⬝ᵥ update`) and the
denominator is nonzero. -/
theorem step_res_orthogonal {n : ℕ} (A : Mat n) (u r : Vec n) (aN : ℚ)
    (hI : aN = r ⬝ᵥ u) (hden : u ⬝ᵥ (A *ᵥ u) ≠ 0) :
    (r - (aN / (u ⬝ᵥ (A *ᵥ u))) • (A *ᵥ u)) ⬝ᵥ u = 0 := by
  rw [Matrix.sub_dotProduct, Matrix.smul_dotProduct, Matrix.dotProduct_comm (A *ᵥ u) u,
    smul_eq_mul, div_mul_cancel₀ _ hden, hI, sub_self]

/-- C4 (amended): the residual norm sequence need not decrease; the
invariant that does hold at the cited lines is orthogonality:
`initIteration` establishes `absNew = res ⬝ᵥ update`, and whenever that
consistency holds and the denominator `update ⬝ᵥ tmp` is nonzero, the
step's new residual is orthogonal to the search direction used, and a
non-converging step re-establishes the consistency for the next step. -/
theorem C4_amended {n : ℕ} (A P : Mat n) (sqrt : ℚ → ℚ) (tol : ℚ) (calcEigenvals : Bool)
    (rhs x0 x : Vec n) (m m0 : CGMembers n) :
    ((cgInit A P sqrt tol calcEigenvals rhs x0 m0).1 = false →
      (cgInit A P sqrt tol calcEigenvals rhs x0 m0).2.2.absNew =
        (cgInit A P sqrt tol calcEigenvals rhs x0 m0).2.2.res ⬝ᵥ
          (cgInit A P sqrt tol calcEigenvals rhs x0 m0).2.2.update) ∧
    (m.absNew = m.res ⬝ᵥ m.update →
     m.update ⬝ᵥ (A *ᵥ m.update) ≠ 0 →
      ((cgStep A P sqrt tol calcEigenvals x m).2.2.res ⬝ᵥ m.update = 0 ∧
       ((cgStep A P sqrt tol calcEigenvals x m).1 = false →
         (cgStep A P sqrt tol calcEigenvals x m).2.2.absNew =
           (cgStep A P sqrt tol calcEigenvals x m).2.2.res ⬝ᵥ
             (cgStep A P sqrt tol calcEigenvals x m).2.2.update))) := by
  constructor
  · intro h
    obtain ⟨-, hres, hupd, habs, -⟩ := cgInit_false_char A P sqrt tol calcEigenvals rhs x0 m0 h
    rw [hres, hupd, habs]
  · intro hI hden
    have horth : (m.res - (m.absNew / (m.update ⬝ᵥ (A *ᵥ m.update))) • (A *ᵥ m.update)) ⬝ᵥ
        m.update = 0 := step_res_orthogonal A m.update m.res m.absNew hI hden
    constructor
    · rw [(cgStep_res_char A P sqrt tol calcEigenvals x m).1]
      exact horth
    · intro hf
      obtain ⟨hu, ha⟩ := cgStep_false_char A P sqrt tol calcEigenvals x m hf
      rw [ha, hu, (cgStep_res_char A P sqrt tol calcEigenvals x m).1,
        Matrix.dotProduct_add, Matrix.dotProduct_smul, smul_eq_mul, horth, mul_zero, add_zero]

/-- C4 amended (witness): the step orthogonality at a concrete consistent
state. -/
theorem C4_amended_witness :
    (cgStep !![(2:ℚ)] 1 id (1/1000) false ![0]
        ⟨![1], ![1], 0, 1, 1, 1, [], []⟩).2.2.res ⬝ᵥ
      (⟨![1], ![1], 0, 1, 1, 1, [], []⟩ : CGMembers 1).update = 0 ∧
    ((cgStep !![(2:ℚ)] 1 id (1/1000) false ![0]
        ⟨![1], ![1], 0, 1, 1, 1, [], []⟩).1 = false →
      (cgStep !![(2:ℚ)] 1 id (1/1000) false ![0]
        ⟨![1], ![1], 0, 1, 1, 1, [], []⟩).2.2.absNew =
        (cgStep !![(2:ℚ)] 1 id (1/1000) false ![0]
          ⟨![1], ![1], 0, 1, 1, 1, [], []⟩).2.2.res ⬝ᵥ
          (cgStep !![(2:ℚ)] 1 id (1/1000) false ![0]
            ⟨![1], ![1], 0, 1, 1, 1, [], []⟩).2.2.update) :=
  (C4_amended !![(2:ℚ)] 1 id (1/1000) false ![1] 0 ![0]
      ⟨![1], ![1], 0, 1, 1, 1, [], []⟩ ⟨![1], ![1], 0, 1, 1, 1, [], []⟩).2
    (by norm_num [Matrix.dotProduct, Fin.sum_univ_one])
    (by norm_num [Matrix.dotProduct, Matrix.mulVec, Fin.sum_univ_one])

/-! ## Claim C5: finite termination on SPD systems -/

/-- Base case of the pure recurrence: the residual. -/
theorem rr_zero {n : ℕ} (A P : Mat n) (r0 : Vec n) : rr A P r0 0 = r0 := rfl

/-- Base case of the pure recurrence: the search direction. -/
theorem uu_zero {n : ℕ} (A P : Mat n) (r0 : Vec n) : uu A P r0 0 = P *ᵥ r0 := rfl

/-- Step equation of the residual of the pure recurrence. -/
theorem rr_succ {n : ℕ} (A P : Mat n) (r0 : Vec n) (k : ℕ) :
    rr A P r0 (k + 1) = rr A P r0 k - alphaQ A P r0 k • (A *ᵥ uu A P r0 k) := rfl

/-- Step equation of the search direction of the pure recurrence. -/
theorem uu_succ {n : ℕ} (A P : Mat n) (r0 : Vec n) (k : ℕ) :
    uu A P r0 (k + 1) = P *ᵥ rr A P r0 (k + 1) + betaQ A P r0 k • uu A P r0 k := rfl

/-- Moving a symmetric matrix across the dot product. -/
theorem dot_mulVec_symm {n : ℕ} {A : Mat n} (hA : A.IsSymm) (v w : Vec n) :
    (A *ᵥ v) ⬝ᵥ w = v ⬝ᵥ (A *ᵥ w) := by
  rw [Matrix.dotProduct_mulVec, ← Matrix.mulVec_transpose, hA]

/-- Linearity of the dot product in a finite linear combination. -/
theorem sum_smul_dotProduct {n m : ℕ} (c : Fin m → ℚ) (v : Fin m → Vec n) (w : Vec n) :
    (∑ i, c i • v i) ⬝ᵥ w = ∑ i, c i * (v i ⬝ᵥ w) := by
  calc (∑ i, c i • v i) ⬝ᵥ w = ∑ j, (∑ i, c i * v i j) * w j := by
        simp [Matrix.dotProduct, Finset.sum_apply, Pi.smul_apply, smul_eq_mul]
    _ = ∑ j, ∑ i, c i * v i j * w j := by simp [Finset.sum_mul]
    _ = ∑ i, ∑ j, c i * v i j * w j := Finset.sum_comm
    _ = ∑ i, c i * (v i ⬝ᵥ w) := by
        simp [Matrix.dotProduct, Finset.mul_sum, mul_assoc]

/-- The step direction scaled by `alpha` joins consecutive residuals. -/
theorem smul_Auu {n : ℕ} (A P : Mat n) (r0 : Vec n) (k : ℕ) :
    alphaQ A P r0 k • (A *ᵥ uu A P r0 k) = rr A P r0 k - rr A P r0 (k + 1) := by
  rw [rr_succ, sub_sub_cancel]

/-- A vector orthogonal to two consecutive residuals is orthogonal to
`A` applied to the search direction between them. -/
theorem dot_Au_zero {n : ℕ} (A P : Mat n) (r0 : Vec n) (k : ℕ)
    (hα : alphaQ A P r0 k ≠ 0) (z : Vec n)
    (h1 : z ⬝ᵥ rr A P r0 k = 0) (h2 : z ⬝ᵥ rr A P r0 (k + 1) = 0) :
    z ⬝ᵥ (A *ᵥ uu A P r0 k) = 0 := by
  have h3 : z ⬝ᵥ (alphaQ A P r0 k • (A *ᵥ uu A P r0 k)) = 0 := by
    rw [smul_Auu, Matrix.dotProduct_sub, h1, h2, sub_zero]
  rw [Matrix.dotProduct_smul, smul_eq_mul] at h3
  exact (mul_eq_zero.mp h3).resolve_left hα

/-- The classical CG invariants, by strong induction: as long as no
residual has vanished, the residuals are pairwise orthogonal in the
`P`-inner product, each residual is orthogonal to all earlier search
directions, and the search directions are pairwise `A`-conjugate. -/
theorem cg_invariants {n : ℕ} (A P : Mat n) (r0 : Vec n)
    (hA : A.IsSymm) (hP : P.IsSymm)
    (hAp : ∀ v : Vec n, v ≠ 0 → 0 < v ⬝ᵥ (A *ᵥ v))
    (hPp : ∀ v : Vec n, v ≠ 0 → 0 < v ⬝ᵥ (P *ᵥ v)) :
    ∀ k : ℕ, (∀ i, i < k → rr A P r0 i ≠ 0) →
      (∀ i, i < k → rr A P r0 k ⬝ᵥ (P *ᵥ rr A P r0 i) = 0) ∧
      (∀ i, i < k → rr A P r0 k ⬝ᵥ uu A P r0 i = 0) ∧
      (∀ i, i < k → uu A P r0 k ⬝ᵥ (A *ᵥ uu A P r0 i) = 0) := by
  intro k
  induction k using Nat.strong_induction_on with
  | _ k ih =>
    match k with
    | 0 =>
      exact fun _ => ⟨fun i hi => absurd hi (Nat.not_lt_zero i),
        fun i hi => absurd hi (Nat.not_lt_zero i),
        fun i hi => absurd hi (Nat.not_lt_zero i)⟩
    | Nat.succ k =>
      intro hnz
      have hG : ∀ j, j ≤ k →
          (∀ i, i < j → rr A P r0 j ⬝ᵥ (P *ᵥ rr A P r0 i) = 0) ∧
          (∀ i, i < j → rr A P r0 j ⬝ᵥ uu A P r0 i = 0) ∧
          (∀ i, i < j → uu A P r0 j ⬝ᵥ (A *ᵥ uu A P r0 i) = 0) :=
        fun j hj => ih j (Nat.lt_succ_of_le hj)
          (fun i hi => hnz i (Nat.lt_succ_of_lt (lt_of_lt_of_le hi hj)))
      have hru : ∀ j, j ≤ k → rr A P r0 j ⬝ᵥ uu A P r0 j = aN A P r0 j := by
        intro j hj
        match j with
        | 0 => rfl
        | Nat.succ i =>
          rw [uu_succ, Matrix.dotProduct_add, Matrix.dotProduct_smul, smul_eq_mul,
            (hG (i+1) hj).2.1 i (Nat.lt_succ_self i), mul_zero, add_zero]
          rfl
      have haN : ∀ j, j ≤ k → 0 < aN A P r0 j := fun j hj =>
        hPp _ (hnz j (Nat.lt_succ_of_le hj))
      have hune : ∀ j, j ≤ k → uu A P r0 j ≠ 0 := by
        intro j hj h0
        have hx := hru j hj
        rw [h0, Matrix.dotProduct_zero] at hx
        exact (haN j hj).ne' hx.symm
      have hdd : ∀ j, j ≤ k → 0 < dden A P r0 j := fun j hj => hAp _ (hune j hj)
      have hαne : ∀ j, j ≤ k → alphaQ A P r0 j ≠ 0 := fun j hj =>
        div_ne_zero (haN j hj).ne' (hdd j hj).ne'
      have hD : ∀ i, i < k + 1 → rr A P r0 (k+1) ⬝ᵥ uu A P r0 i = 0 := by
        intro i hi
        rw [rr_succ, Matrix.sub_dotProduct, Matrix.smul_dotProduct, smul_eq_mul]
        rcases Nat.lt_succ_iff_lt_or_eq.mp hi with hik | hik
        · rw [(hG k le_rfl).2.1 i hik, dot_mulVec_symm hA, (hG k le_rfl).2.2 i hik,
            mul_zero, sub_zero]
        · subst hik
          rw [hru i le_rfl, Matrix.dotProduct_comm (A *ᵥ uu A P r0 i) (uu A P r0 i)]
          have hcan : alphaQ A P r0 i * dden A P r0 i = aN A P r0 i :=
            div_mul_cancel₀ _ (hdd i le_rfl).ne'
          rw [show uu A P r0 i ⬝ᵥ (A *ᵥ uu A P r0 i) = dden A P r0 i from rfl, hcan, sub_self]
      have hO : ∀ i, i < k + 1 → rr A P r0 (k+1) ⬝ᵥ (P *ᵥ rr A P r0 i) = 0 := by
        intro i hi
        match i with
        | 0 => exact hD 0 hi
        | Nat.succ j =>
          have hju : P *ᵥ rr A P r0 (j+1) = uu A P r0 (j+1) - betaQ A P r0 j • uu A P r0 j := by
            rw [uu_succ, add_sub_cancel_right]
          rw [hju, Matrix.dotProduct_sub, Matrix.dotProduct_smul, smul_eq_mul,
            hD (j+1) hi, hD j (Nat.lt_of_succ_lt hi), mul_zero, sub_zero]
      refine ⟨hO, hD, ?_⟩
      intro i hi
      rw [uu_succ, Matrix.add_dotProduct, Matrix.smul_dotProduct, smul_eq_mul]
      have hz1 : (P *ᵥ rr A P r0 (k+1)) ⬝ᵥ rr A P r0 i = 0 := by
        rw [dot_mulVec_symm hP]
        exact hO i hi
      rcases Nat.lt_succ_iff_lt_or_eq.mp hi with hik | hik
      · have hz2 : (P *ᵥ rr A P r0 (k+1)) ⬝ᵥ rr A P r0 (i+1) = 0 := by
          rw [dot_mulVec_symm hP]
          exact hO (i+1) (Nat.succ_lt_succ hik)
        rw [dot_Au_zero A P r0 i (hαne i (le_of_lt hik)) _ hz1 hz2,
          (hG k le_rfl).2.2 i hik, mul_zero, add_zero]
      · subst hik
        have hz2 : (P *ᵥ rr A P r0 (i+1)) ⬝ᵥ rr A P r0 (i+1) = aN A P r0 (i+1) := by
          rw [dot_mulVec_symm hP]
          rfl
        have h4 : (P *ᵥ rr A P r0 (i+1)) ⬝ᵥ (alphaQ A P r0 i • (A *ᵥ uu A P r0 i)) =
            -aN A P r0 (i+1) := by
          rw [smul_Auu, Matrix.dotProduct_sub, hz1, hz2, zero_sub]
        rw [Matrix.dotProduct_smul, smul_eq_mul] at h4
        have hddi := (hdd i le_rfl).ne'
        have haNi := (haN i le_rfl).ne'
        have h5 : aN A P r0 i * ((P *ᵥ rr A P r0 (i+1)) ⬝ᵥ (A *ᵥ uu A P r0 i)) =
            -(aN A P r0 (i+1) * dden A P r0 i) := by
          unfold alphaQ at h4
          field_simp at h4
          linarith [h4]
        rw [show uu A P r0 i ⬝ᵥ (A *ᵥ uu A P r0 i) = dden A P r0 i from rfl]
        unfold betaQ
        field_simp
        linarith [h5]

/-- On an SPD system some residual of the pure recurrence vanishes by
index `n`: otherwise the `n + 1` residuals would be pairwise orthogonal
nonzero vectors for the positive definite `P`-form, hence linearly
independent in an `n`-dimensional space. -/
theorem rr_eventually_zero {n : ℕ} (A P : Mat n) (r0 : Vec n)
    (hA : A.IsSymm) (hP : P.IsSymm)
    (hAp : ∀ v : Vec n, v ≠ 0 → 0 < v ⬝ᵥ (A *ᵥ v))
    (hPp : ∀ v : Vec n, v ≠ 0 → 0 < v ⬝ᵥ (P *ᵥ v)) :
    ∃ k, k ≤ n ∧ rr A P r0 k = 0 := by
  by_contra hcon
  push_neg at hcon
  have hnz : ∀ k, k ≤ n → rr A P r0 k ≠ 0 := fun k hk => hcon k hk
  have hogen : ∀ j i : ℕ, i < j → j ≤ n → rr A P r0 j ⬝ᵥ (P *ᵥ rr A P r0 i) = 0 := by
    intro j i hij hjn
    exact (cg_invariants A P r0 hA hP hAp hPp j
      (fun t ht => hnz t (le_of_lt (lt_of_lt_of_le ht hjn)))).1 i hij
  have hOffDiag : ∀ i j : Fin (n + 1), i ≠ j →
      rr A P r0 i ⬝ᵥ (P *ᵥ rr A P r0 j) = 0 := by
    intro i j hij
    rcases lt_or_gt_of_ne (fun h => hij (Fin.ext h) : (i : ℕ) ≠ (j : ℕ)) with h | h
    · rw [Matrix.dotProduct_comm, dot_mulVec_symm hP]
      exact hogen j i h (Nat.lt_succ_iff.mp j.isLt)
    · exact hogen i j h (Nat.lt_succ_iff.mp i.isLt)
  have hlin : LinearIndependent ℚ (fun i : Fin (n + 1) => rr A P r0 i) := by
    rw [Fintype.linearIndependent_iff]
    intro c hc j
    have h0 : (∑ i, c i • rr A P r0 (i : ℕ)) ⬝ᵥ (P *ᵥ rr A P r0 (j : ℕ)) = 0 := by
      rw [hc, Matrix.zero_dotProduct]
    rw [sum_smul_dotProduct] at h0
    rw [Finset.sum_eq_single j] at h0
    · have hpos : 0 < rr A P r0 (j : ℕ) ⬝ᵥ (P *ᵥ rr A P r0 (j : ℕ)) :=
        hPp _ (hnz j (Nat.lt_succ_iff.mp j.isLt))
      exact (mul_eq_zero.mp h0).resolve_right hpos.ne'
    · intro i _ hij
      rw [hOffDiag i j hij, mul_zero]
    · intro habs
      exact absurd (Finset.mem_univ j) habs
  haveI : Module.Finite ℚ (Vec n) := Module.Finite.pi
  have hcard := hlin.fintype_card_le_finrank
  rw [Module.finrank_fintype_fun_eq_card, Fintype.card_fin, Fintype.card_fin] at hcard
  omega

/-- A solver state matching level `k` of the pure recurrence is carried by
the step to level `k + 1`. -/
theorem cgStep_matches {n : ℕ} (A P : Mat n) (sqrt : ℚ → ℚ) (tol : ℚ) (ce : Bool)
    (x : Vec n) (m : CGMembers n) (r0 : Vec n) (k : ℕ)
    (hres : m.res = rr A P r0 k) (hupd : m.update = uu A P r0 k)
    (habs : m.absNew = aN A P r0 k) :
    (cgStep A P sqrt tol ce x m).2.2.res = rr A P r0 (k+1) ∧
    ((cgStep A P sqrt tol ce x m).1 = false →
      (cgStep A P sqrt tol ce x m).2.2.update = uu A P r0 (k+1) ∧
      (cgStep A P sqrt tol ce x m).2.2.absNew = aN A P r0 (k+1)) := by
  refine ⟨?_, fun hf => ?_⟩
  · rw [(cgStep_res_char A P sqrt tol ce x m).1, hres, hupd, habs]
    rfl
  · obtain ⟨hu, ha⟩ := cgStep_false_char A P sqrt tol ce x m hf
    constructor
    · rw [hu, hres, hupd, habs]
      rfl
    · rw [ha, hres, hupd, habs]
      rfl

/-- A step whose updated residual is exactly zero reports convergence
(for any positive tolerance, given `sqrt 0 = 0`). -/
theorem cgStep_true_of_res_zero {n : ℕ} (A P : Mat n) (sqrt : ℚ → ℚ) (tol : ℚ)
    (ce : Bool) (x : Vec n) (m : CGMembers n)
    (hrz : m.res - (m.absNew / (m.update ⬝ᵥ (A *ᵥ m.update))) • (A *ᵥ m.update) = 0)
    (hs0 : sqrt 0 = 0) (htol : 0 < tol) :
    (cgStep A P sqrt tol ce x m).1 = true := by
  rw [cgStep_fst_iff, hrz, Matrix.dotProduct_zero, hs0, zero_div]
  exact htol

/-- From a state matching level `k < K` of a recurrence whose residual
vanishes at `K`, the solve loop converges within `K - k` further steps. -/
theorem solveLoop_reaches {n : ℕ} (A P : Mat n) (sqrt : ℚ → ℚ) (tol : ℚ) (ce : Bool)
    (r0 : Vec n) (K : ℕ) (hK : rr A P r0 K = 0)
    (hs0 : sqrt 0 = 0) (htol : 0 < tol) :
    ∀ (d k : ℕ) (x : Vec n) (m : CGMembers n) (iters fuel : ℕ),
      k + d = K → k < K → K - k ≤ fuel →
      m.res = rr A P r0 k → m.update = uu A P r0 k → m.absNew = aN A P r0 k →
      (solveLoop (cgStep A P sqrt tol ce) fuel x m iters).2.2.2 = TerminalState.Converged ∧
      (solveLoop (cgStep A P sqrt tol ce) fuel x m iters).2.2.1 ≤ iters + (K - k) := by
  intro d
  induction d with
  | zero => intro k x m iters fuel hkd hkK _ _ _ _; omega
  | succ d ihd =>
    intro k x m iters fuel hkd hkK hfuel hres hupd habs
    obtain ⟨f, rfl⟩ : ∃ f, fuel = f + 1 := ⟨fuel - 1, by omega⟩
    obtain ⟨hres2, hfp⟩ := cgStep_matches A P sqrt tol ce x m r0 k hres hupd habs
    rcases hb : (cgStep A P sqrt tol ce x m) with ⟨b, x1, m1⟩
    have hres1 : m1.res = rr A P r0 (k+1) := by rw [← hres2, hb]
    cases b
    · have hk1 : k + 1 ≠ K := by
        intro he
        have hz : rr A P r0 (k+1) = 0 := he ▸ hK
        have hrz : m.res - (m.absNew / (m.update ⬝ᵥ (A *ᵥ m.update))) • (A *ᵥ m.update) = 0 := by
          rw [hres, hupd, habs]
          exact hz
        have hT := cgStep_true_of_res_zero A P sqrt tol ce x m hrz hs0 htol
        rw [hb] at hT
        exact Bool.noConfusion hT
      obtain ⟨hupd1, habs1⟩ := hfp (by rw [hb])
      rw [hb] at hupd1 habs1
      simp only [solveLoop, hb]
      obtain ⟨hc, hle⟩ := ihd (k+1) x1 m1 (iters+1) f (by omega) (by omega) (by omega)
        hres1 hupd1 habs1
      exact ⟨hc, by omega⟩
    · simp only [solveLoop, hb]
      exact ⟨trivial, by omega⟩

/-- An `initIteration` that does not report convergence did fail the
initial error test. -/
theorem cgInit_false_not_small {n : ℕ} (A P : Mat n) (sqrt : ℚ → ℚ) (tol : ℚ)
    (ce : Bool) (rhs x0 : Vec n) (m0 : CGMembers n)
    (h : (cgInit A P sqrt tol ce rhs x0 m0).1 = false) :
    ¬ (sqrt ((rhs - A *ᵥ x0) ⬝ᵥ (rhs - A *ᵥ x0)) / sqrt (rhs ⬝ᵥ rhs) < tol) := by
  cases ce <;>
  · unfold cgInit baseInitIteration at h
    simp only [Bool.false_eq_true, if_false, ite_true] at h
    split at h
    next heq => simp at h
    next heq =>
      split at heq
      · exact absurd (congrArg Prod.fst heq) (by simp)
      · simp only [Prod.mk.injEq] at heq
        obtain ⟨-, rfl, rfl⟩ := heq
        split at h
        next hc => simp at h
        next hc => exact hc

/-- C5: for every SPD operator and SPD preconditioner of dimension `n`,
any right-hand side, any initial guess, any positive tolerance and any
iteration cap of at least `n`, `solve` reaches the terminal state
`Converged` within at most `n` iterations in exact arithmetic. -/
theorem C5_finite_termination {n : ℕ} (A P : Mat n) (sqrt : ℚ → ℚ) (tol : ℚ)
    (maxIters : ℕ) (calcEigenvals : Bool) (rhs x0 : Vec n) (m0 : CGMembers n)
    (hSA : SPD A) (hSP : SPD P) (htol : 0 < tol) (hs0 : sqrt 0 = 0)
    (hmax : n ≤ maxIters) :
    (solve A P sqrt tol maxIters calcEigenvals rhs x0 m0).2.2.2 = TerminalState.Converged ∧
    (solve A P sqrt tol maxIters calcEigenvals rhs x0 m0).2.2.1 ≤ n := by
  obtain ⟨hA, hAp⟩ := hSA
  obtain ⟨hP, hPp⟩ := hSP
  unfold solve
  rcases hi : cgInit A P sqrt tol calcEigenvals rhs x0 m0 with ⟨b, x1, m1⟩
  cases b
  · have hif : (cgInit A P sqrt tol calcEigenvals rhs x0 m0).1 = false := by rw [hi]
    obtain ⟨hx1, hres, hupd, habs, hrn⟩ :=
      cgInit_false_char A P sqrt tol calcEigenvals rhs x0 m0 hif
    rw [hi] at hx1 hres hupd habs hrn
    have hres0 : m1.res = rr A P (rhs - A *ᵥ x0) 0 := hres
    have hupd0 : m1.update = uu A P (rhs - A *ᵥ x0) 0 := hupd
    have habs0 : m1.absNew = aN A P (rhs - A *ᵥ x0) 0 := habs
    obtain ⟨k0, hk0n, hk0z⟩ := rr_eventually_zero A P (rhs - A *ᵥ x0) hA hP hAp hPp
    have hex : ∃ k, rr A P (rhs - A *ᵥ x0) k = 0 := ⟨k0, hk0z⟩
    have hKz : rr A P (rhs - A *ᵥ x0) (Nat.find hex) = 0 := Nat.find_spec hex
    have hKle : Nat.find hex ≤ n := le_trans (Nat.find_min' hex hk0z) hk0n
    have hK0 : Nat.find hex ≠ 0 := by
      intro h0
      have hz0 : rhs - A *ᵥ x0 = 0 := by
        have hx := hKz
        rw [h0] at hx
        exact hx
      apply cgInit_false_not_small A P sqrt tol calcEigenvals rhs x0 m0 hif
      rw [hz0, Matrix.zero_dotProduct, hs0, zero_div]
      exact htol
    obtain ⟨hc, hle⟩ := solveLoop_reaches A P sqrt tol calcEigenvals (rhs - A *ᵥ x0)
      (Nat.find hex) hKz hs0 htol (Nat.find hex) 0 x1 m1 0 maxIters
      (by omega) (by omega) (by omega) hres0 hupd0 habs0
    exact ⟨hc, le_trans hle (by omega)⟩
  · exact ⟨rfl, Nat.zero_le n⟩

/-- The 1-by-1 matrix `[2]` is symmetric positive definite. -/
theorem SPD_two : SPD (!![2] : Mat 1) := by
  constructor
  · ext i j
    fin_cases i
    fin_cases j
    simp [Matrix.transpose]
  · intro v hv
    have h1 : v ⬝ᵥ ((!![2] : Mat 1) *ᵥ v) = 2 * (v 0 * v 0) := by
      simp [Matrix.dotProduct, Matrix.mulVec, Fin.sum_univ_one]
      ring
    rw [h1]
    have h0 : v 0 ≠ 0 := by
      intro hc
      exact hv (funext fun i => by fin_cases i; simp [hc])
    nlinarith [mul_self_pos.mpr h0]

/-- C5 (witness): the concrete SPD system `2x = 4` with initial guess `1`
converges within one iteration. -/
theorem C5_finite_termination_witness :
    (solve !![(2:ℚ)] 1 id (1/2) 3 false ![4] ![1] ⟨0, 0, 0, 0, 0, 0, [], []⟩).2.2.2 =
      TerminalState.Converged ∧
    (solve !![(2:ℚ)] 1 id (1/2) 3 false ![4] ![1] ⟨0, 0, 0, 0, 0, 0, [], []⟩).2.2.1 ≤ 1 :=
  C5_finite_termination !![(2:ℚ)] 1 id (1/2) 3 false ![4] ![1] ⟨0, 0, 0, 0, 0, 0, [], []⟩
    SPD_two SPD_one (by norm_num) rfl (by norm_num)

end GismoCG
